import Mathlib

set_option maxHeartbeats 1000000

/-
Shallow embedding of the document store in `vector_store.py`
(class `VectorStore`) of the Medical_RAG repository.

Python strings are modelled as `List Char`; Python dictionaries as
association lists in insertion order; the ChromaDB collection as a list
of chunk records in insertion order.  The `uuid.uuid4()` call of
`add_document` is externalised: the generated id is passed as an
explicit argument, and its uniqueness is a hypothesis where needed.
-/

/-- Python `str.isspace` on the ASCII whitespace characters recognised by
`str.strip()` (space, tab, newline, carriage return, vertical tab, form feed). -/
def pyIsSpace (c : Char) : Bool :=
  c = ' ' || c = '\t' || c = '\n' || c = '\r' || c = '\x0b' || c = '\x0c'

/-- Python `s.strip()`: remove leading and trailing whitespace. -/
def pyStrip (s : List Char) : List Char :=
  ((s.dropWhile pyIsSpace).reverse.dropWhile pyIsSpace).reverse

/-- Python `s.split(sep)` for a one-character separator: splits at every
occurrence of `sep`, keeping empty segments. -/
def splitOnChar (sep : Char) : List Char → List (List Char)
  | [] => [[]]
  | c :: cs =>
    if c = sep then [] :: splitOnChar sep cs
    else
      match splitOnChar sep cs with
      | [] => [[c]]
      | p :: ps => (c :: p) :: ps

/-- `vector_store.py` line 75:
`paragraphs = [p for p in text.split('\n') if p.strip()]`. -/
def paragraphsOf (text : List Char) : List (List Char) :=
  (splitOnChar '\n' text).filter (fun p => !(pyStrip p).isEmpty)

/-- The accumulation loop of `VectorStore._chunk_text`
(`vector_store.py` lines 77-92), with the `chunks` list and
`current_chunk` string threaded explicitly. -/
def chunk_text_loop (maxSize : Nat) :
    List (List Char) → List (List Char) → List Char → List (List Char)
  | [], chunks, current =>
      if current = [] then chunks else chunks ++ [pyStrip current]
  | p :: ps, chunks, current =>
      if maxSize < current.length + p.length ∧ current ≠ [] then
        chunk_text_loop maxSize ps (chunks ++ [pyStrip current]) p
      else if current ≠ [] then
        chunk_text_loop maxSize ps chunks (current ++ ' ' :: p)
      else
        chunk_text_loop maxSize ps chunks p

/-- `VectorStore._chunk_text` (`vector_store.py` lines 70-94). -/
def chunk_text (text : List Char) (maxSize : Nat := 512) : List (List Char) :=
  chunk_text_loop maxSize (paragraphsOf text) [] []

/-- Closing/emitting the final running chunk, shared by the reference
chunkers below. -/
def chunkFinalize (st : List (List Char) × List Char) : List (List Char) :=
  if st.2 = [] then st.1 else st.1 ++ [pyStrip st.2]

/-- Modelled from the spec, section 4.1: one greedy step — "a paragraph is
appended (joined with a single space) to the current chunk if doing so keeps
the chunk's length within `max_chunk_size`; otherwise the current chunk is
closed (trimmed of leading/trailing whitespace) and emitted, and a new chunk
is started containing just that paragraph". -/
def chunkSpecStep (maxSize : Nat) (st : List (List Char) × List Char) (p : List Char) :
    List (List Char) × List Char :=
  if st.2 = [] then (st.1, p)
  else if (st.2 ++ ' ' :: p).length ≤ maxSize then (st.1, st.2 ++ ' ' :: p)
  else (st.1 ++ [pyStrip st.2], p)

/-- Modelled from the spec, section 4.1: the reference Chunker — split on
newline characters, discard whitespace-only segments, greedily accumulate
paragraphs in order, emit the final non-empty running chunk trimmed. -/
def chunkSpec (text : List Char) (maxSize : Nat) : List (List Char) :=
  chunkFinalize ((paragraphsOf text).foldl (chunkSpecStep maxSize) ([], []))

/-- The reference greedy step amended to the code's budget check: the
joining space is NOT counted — a paragraph is appended when
`current.length + paragraph.length ≤ maxSize`. -/
def chunkSpecAmendedStep (maxSize : Nat) (st : List (List Char) × List Char) (p : List Char) :
    List (List Char) × List Char :=
  if st.2 = [] then (st.1, p)
  else if st.2.length + p.length ≤ maxSize then (st.1, st.2 ++ ' ' :: p)
  else (st.1 ++ [pyStrip st.2], p)

/-- The reference Chunker with the amended (space-uncounted) budget check. -/
def chunkSpecAmended (text : List Char) (maxSize : Nat) : List (List Char) :=
  chunkFinalize ((paragraphsOf text).foldl (chunkSpecAmendedStep maxSize) ([], []))

/-- Claim C1 (counterexample): chunking
`"Para one.\nPara two.\n\nPara three."` with `max_chunk_size = 20` does NOT
return the three-chunk sequence `["Para one.", "Para two.", "Para three."]`
claimed by the spec. -/
theorem chunk_scenario_three_chunks_false :
    chunk_text ("Para one.\nPara two.\n\nPara three.".toList) 20 ≠
      [("Para one.".toList), ("Para two.".toList), ("Para three.".toList)] := by
  decide

/-- Claim C1 (amended): chunking `"Para one.\nPara two.\n\nPara three."` with
`max_chunk_size = 20` returns the two-chunk sequence
`["Para one. Para two.", "Para three."]`: the first two paragraphs have
combined length 18 ≤ 20 (the joining space is not counted by the budget
check), so they share a chunk, and the third paragraph starts a new chunk. -/
theorem chunk_scenario_two_chunks :
    chunk_text ("Para one.\nPara two.\n\nPara three.".toList) 20 =
      [("Para one. Para two.".toList), ("Para three.".toList)] := by
  decide

/-- Claim C2 (counterexample): with `max_chunk_size = 10`, the text
`"aaaaa\nbbbbb"` yields a chunk of length 11 that is not a single over-long
paragraph: the budget check `len(current) + len(paragraph) > max_chunk_size`
does not count the joining space. -/
theorem chunk_size_bound_counterexample :
    ∃ c ∈ chunk_text ("aaaaa\nbbbbb".toList) 10,
      10 < c.length ∧
        ∀ p ∈ paragraphsOf ("aaaaa\nbbbbb".toList), ¬(10 < p.length ∧ c = pyStrip p) := by
  decide

lemma pyStrip_length_le (s : List Char) : (pyStrip s).length ≤ s.length := by
  have h1 : ((s.dropWhile pyIsSpace).reverse.dropWhile pyIsSpace).length ≤
      (s.dropWhile pyIsSpace).reverse.length := (List.dropWhile_sublist _).length_le
  have h2 : (s.dropWhile pyIsSpace).length ≤ s.length := (List.dropWhile_sublist _).length_le
  simp only [pyStrip, List.length_reverse] at *
  omega

lemma pyStrip_emit_ok (maxSize : Nat) (allP : List (List Char)) (cur : List Char)
    (hcur : cur = [] ∨ cur ∈ allP ∨ cur.length ≤ maxSize + 1) :
    (pyStrip cur).length ≤ maxSize + 1 ∨
      ∃ p ∈ allP, pyStrip cur = pyStrip p ∧ maxSize < p.length := by
  rcases hcur with rfl | h | h
  · exact Or.inl (Nat.le_trans (pyStrip_length_le []) (Nat.zero_le _))
  · by_cases hl : maxSize < cur.length
    · exact Or.inr ⟨cur, h, rfl, hl⟩
    · exact Or.inl (le_trans (pyStrip_length_le cur) (by omega))
  · exact Or.inl (le_trans (pyStrip_length_le cur) (by omega))

lemma chunk_text_loop_bound (maxSize : Nat) (allP : List (List Char)) :
    ∀ (ps : List (List Char)) (chunks : List (List Char)) (cur : List Char),
      (∀ p ∈ ps, p ∈ allP) →
      (∀ c ∈ chunks,
        c.length ≤ maxSize + 1 ∨ ∃ p ∈ allP, c = pyStrip p ∧ maxSize < p.length) →
      (cur = [] ∨ cur ∈ allP ∨ cur.length ≤ maxSize + 1) →
      ∀ c ∈ chunk_text_loop maxSize ps chunks cur,
        c.length ≤ maxSize + 1 ∨ ∃ p ∈ allP, c = pyStrip p ∧ maxSize < p.length := by
  intro ps
  induction ps with
  | nil =>
    intro chunks cur _ hchunks hcur c hc
    rw [chunk_text_loop] at hc
    by_cases h : cur = []
    · rw [if_pos h] at hc
      exact hchunks c hc
    · rw [if_neg h] at hc
      rcases List.mem_append.mp hc with hc | hc
      · exact hchunks c hc
      · rw [List.mem_singleton] at hc
        rw [hc]
        exact pyStrip_emit_ok maxSize allP cur hcur
  | cons p ps ih =>
    intro chunks cur hsub hchunks hcur c hc
    have hpall : p ∈ allP := hsub p (List.mem_cons_self p ps)
    have hsub' : ∀ q ∈ ps, q ∈ allP := fun q hq => hsub q (List.mem_cons_of_mem p hq)
    rw [chunk_text_loop] at hc
    by_cases h2 : cur = []
    · rw [if_neg (fun h => h.2 h2), if_neg (fun hne => hne h2)] at hc
      exact ih chunks p hsub' hchunks (Or.inr (Or.inl hpall)) c hc
    · by_cases hlen : cur.length + p.length ≤ maxSize
      · rw [if_neg (fun h => absurd h.1 (by omega : ¬ maxSize < cur.length + p.length)),
          if_pos h2] at hc
        refine ih chunks (cur ++ ' ' :: p) hsub' hchunks (Or.inr (Or.inr ?_)) c hc
        simp only [List.length_append, List.length_cons]
        omega
      · rw [if_pos ⟨by omega, h2⟩] at hc
        refine ih (chunks ++ [pyStrip cur]) p hsub' ?_ (Or.inr (Or.inl hpall)) c hc
        intro d hd
        rcases List.mem_append.mp hd with hd | hd
        · exact hchunks d hd
        · rw [List.mem_singleton] at hd
          rw [hd]
          exact pyStrip_emit_ok maxSize allP cur hcur

/-- Claim C2 (amended): every chunk returned by the Chunker is either the
trimmed form of a single paragraph longer than `max_chunk_size`, or has
length at most `max_chunk_size + 1`: the greedy budget check compares
`current.length + paragraph.length` (without the joining space) against
`max_chunk_size`, so a joined chunk may exceed the budget by exactly the
one joining space. -/
theorem chunker_bound_amended :
    ∀ (text : List Char) (maxSize : Nat), ∀ c ∈ chunk_text text maxSize,
      c.length ≤ maxSize + 1 ∨
        ∃ p ∈ paragraphsOf text, c = pyStrip p ∧ maxSize < p.length := by
  intro text maxSize c hc
  exact chunk_text_loop_bound maxSize (paragraphsOf text) (paragraphsOf text) [] []
    (fun p hp => hp) (by simp) (Or.inl rfl) c hc

/-- Witness for `chunker_bound_amended` at a concrete input. -/
theorem chunker_bound_amended_witness :
    ("aaaaa bbbbb".toList).length ≤ 10 + 1 ∨
      ∃ p ∈ paragraphsOf ("aaaaa\nbbbbb".toList),
        "aaaaa bbbbb".toList = pyStrip p ∧ 10 < p.length :=
  chunker_bound_amended ("aaaaa\nbbbbb".toList) 10 ("aaaaa bbbbb".toList) (by decide)

/-- Claim C3 (counterexample): the code Chunker differs from the reference
Chunker built from the spec's greedy rule (which counts the joining space in
the budget): on `"aaaaa\nbbbbb"` with `max_chunk_size = 10` the code joins
the two paragraphs while the reference closes the chunk. -/
theorem chunker_ne_spec_reference :
    chunk_text ("aaaaa\nbbbbb".toList) 10 ≠ chunkSpec ("aaaaa\nbbbbb".toList) 10 := by
  decide

lemma chunk_text_loop_eq_foldl (maxSize : Nat) :
    ∀ (ps : List (List Char)) (chunks : List (List Char)) (cur : List Char),
      chunk_text_loop maxSize ps chunks cur =
        chunkFinalize (ps.foldl (chunkSpecAmendedStep maxSize) (chunks, cur)) := by
  intro ps
  induction ps with
  | nil => intro chunks cur; rfl
  | cons p ps ih =>
    intro chunks cur
    rw [chunk_text_loop, List.foldl_cons]
    by_cases h2 : cur = []
    · rw [if_neg (fun h => h.2 h2), if_neg (fun hne => hne h2)]
      have hstep : chunkSpecAmendedStep maxSize (chunks, cur) p = (chunks, p) := by
        simp [chunkSpecAmendedStep, h2]
      rw [hstep]
      exact ih chunks p
    · by_cases hlen : cur.length + p.length ≤ maxSize
      · rw [if_neg (fun h => absurd h.1 (by omega : ¬ maxSize < cur.length + p.length)),
          if_pos h2]
        have hstep : chunkSpecAmendedStep maxSize (chunks, cur) p =
            (chunks, cur ++ ' ' :: p) := by
          simp [chunkSpecAmendedStep, h2, hlen]
        rw [hstep]
        exact ih chunks (cur ++ ' ' :: p)
      · rw [if_pos ⟨by omega, h2⟩]
        have hstep : chunkSpecAmendedStep maxSize (chunks, cur) p =
            (chunks ++ [pyStrip cur], p) := by
          simp [chunkSpecAmendedStep, h2, hlen]
        rw [hstep]
        exact ih (chunks ++ [pyStrip cur]) p

/-- Claim C3 (amended): the code Chunker equals the reference definition,
once the reference's greedy budget check is amended to the code's: a
paragraph is appended when `current.length + paragraph.length ≤
max_chunk_size`, the joining space not being counted.  All other clauses —
splitting on newline characters, discarding whitespace-only segments,
original order, trimmed emission of closed chunks and of the final running
chunk, empty output on texts with no non-blank lines — agree as stated. -/
theorem chunker_eq_spec_reference_amended :
    ∀ (text : List Char) (maxSize : Nat),
      chunk_text text maxSize = chunkSpecAmended text maxSize := by
  intro text maxSize
  exact chunk_text_loop_eq_foldl maxSize (paragraphsOf text) [] []

/-
Data model for the ChromaDB collection.  A metadata value is either a
string or an integer (only `chunk_index` is an integer in this code).  A
Python dict is an association list in insertion order with unique keys.
-/

inductive MetaVal where
  | str : String → MetaVal
  | nat : Nat → MetaVal
deriving DecidableEq

abbrev Dict := List (String × MetaVal)

/-- Python `d[k]` / `d.get(k)`: first binding of `k`, if any. -/
def dictGet : Dict → String → Option MetaVal
  | [], _ => none
  | p :: rest, k => if k = p.1 then some p.2 else dictGet rest k

/-- Python `{**m, k: v}` for a single key: overwrite in place if present,
else append at the end. -/
def dictSet (m : Dict) (k : String) (v : MetaVal) : Dict :=
  if (dictGet m k).isSome then m.map (fun p => if p.1 = k then (k, v) else p)
  else m ++ [(k, v)]

/-- One record of the collection: `(id, document, metadata)` as submitted by
`collection.add` in `add_document` (`vector_store.py` lines 62-66). -/
structure Record where
  id : String
  document : List Char
  metadata : Dict
deriving DecidableEq

/-- The chunk record built for chunk `ic.2` at position `ic.1`
(`vector_store.py` lines 58-66). -/
def mkRecord (md : Dict) (docId : String) (ic : Nat × List Char) : Record :=
  { id := docId ++ "_" ++ toString ic.1
  , document := ic.2
  , metadata := dictSet (dictSet md "doc_id" (MetaVal.str docId))
      "chunk_index" (MetaVal.nat ic.1) }

/-- `VectorStore.add_document` (`vector_store.py` lines 47-68).  The
`uuid.uuid4()` result is the explicit `docId` argument; each chunk record is
appended to the collection by `collection.add`; the generated id is
returned. -/
def add_document (store : List Record) (text : List Char) (metadata : Dict)
    (docId : String) : List Record × String :=
  let md := if metadata.isEmpty then [] else metadata
  let chunks := chunk_text text
  (chunks.enum.foldl (fun acc ic => acc ++ [mkRecord md docId ic]) store, docId)

lemma foldl_append_map {α β : Type} (f : α → β) :
    ∀ (l : List α) (s : List β),
      l.foldl (fun acc x => acc ++ [f x]) s = s ++ l.map f := by
  intro l
  induction l with
  | nil => intro s; simp
  | cons x xs ih => intro s; simp [ih]

lemma add_document_eq (store : List Record) (text : List Char) (metadata : Dict)
    (docId : String) :
    add_document store text metadata docId =
      (store ++ (chunk_text text).enum.map
        (mkRecord (if metadata.isEmpty then [] else metadata) docId), docId) := by
  simp [add_document, foldl_append_map]

lemma dict_if_isEmpty (m : Dict) : (if m.isEmpty then ([] : Dict) else m) = m := by
  cases m <;> simp

lemma dictGet_map_overwrite (k : String) (v : MetaVal) :
    ∀ (m : Dict) (k' : String),
      dictGet (m.map (fun p => if p.1 = k then (k, v) else p)) k' =
        if k' = k then ((dictGet m k).map fun _ => v) else dictGet m k' := by
  intro m
  induction m with
  | nil => intro k'; simp [dictGet]
  | cons p rest ih =>
    intro k'
    simp only [List.map_cons, dictGet]
    by_cases hpk : p.1 = k
    · rw [if_pos hpk, if_pos hpk.symm]
      by_cases hk' : k' = k
      · simp [hk']
      · simp [hk', ih, hpk]
    · rw [if_neg hpk, if_neg (show ¬ k = p.1 from fun h => hpk h.symm)]
      by_cases hk'p : k' = p.1
      · have hk'k : ¬ k' = k := fun h => hpk (hk'p.symm.trans h)
        simp [hk'p, hk'k, hpk]
      · simp [hk'p, ih]

lemma dictGet_append_single (k : String) (v : MetaVal) :
    ∀ (m : Dict) (k' : String), dictGet m k = none →
      dictGet (m ++ [(k, v)]) k' = if k' = k then some v else dictGet m k' := by
  intro m
  induction m with
  | nil => intro k' _; simp [dictGet]
  | cons p rest ih =>
    obtain ⟨pk, pv⟩ := p
    intro k' hnone
    rw [dictGet] at hnone
    by_cases hkp : k = pk
    · rw [if_pos hkp] at hnone
      exact absurd hnone (by simp)
    · rw [if_neg hkp] at hnone
      by_cases hk'p : k' = pk
      · subst hk'p
        have hk'k : ¬ k' = k := fun h => hkp h.symm
        simp [dictGet, hk'k]
      · simp only [List.cons_append, dictGet, if_neg hk'p]
        exact ih k' hnone

lemma dictGet_dictSet (m : Dict) (k k' : String) (v : MetaVal) :
    dictGet (dictSet m k v) k' = if k' = k then some v else dictGet m k' := by
  rw [dictSet]
  by_cases h : (dictGet m k).isSome
  · rw [if_pos h, dictGet_map_overwrite]
    rcases Option.isSome_iff_exists.mp h with ⟨w, hw⟩
    rw [hw]
    rfl
  · rw [if_neg h]
    exact dictGet_append_single k v m k' (Option.not_isSome_iff_eq_none.mp h)

/-- Claim C4: `add_document` returns the generated `document_id` regardless
of chunk count, leaves the existing records untouched, persists exactly one
record per chunk — the record at position `i` having id
`document_id ++ "_" ++ i`, the chunk text as document, and metadata equal to
the caller's metadata with `doc_id` and `chunk_index` set (overwriting any
caller-supplied values and preserving every other key) — and persists no
record at all when the Chunker produced zero chunks. -/
theorem add_document_spec (store : List Record) (text : List Char) (metadata : Dict)
    (docId : String) :
    (add_document store text metadata docId).2 = docId
    ∧ (add_document store text metadata docId).1.length =
        store.length + (chunk_text text).length
    ∧ (add_document store text metadata docId).1.take store.length = store
    ∧ (chunk_text text = [] → (add_document store text metadata docId).1 = store)
    ∧ ∀ i c, (chunk_text text)[i]? = some c →
        ∃ r, (add_document store text metadata docId).1[store.length + i]? = some r
          ∧ r.document = c
          ∧ r.id = docId ++ "_" ++ toString i
          ∧ dictGet r.metadata "doc_id" = some (MetaVal.str docId)
          ∧ dictGet r.metadata "chunk_index" = some (MetaVal.nat i)
          ∧ ∀ k, k ≠ "doc_id" → k ≠ "chunk_index" →
              dictGet r.metadata k = dictGet metadata k := by
  rw [add_document_eq, dict_if_isEmpty]
  refine ⟨rfl, ?_, ?_, ?_, ?_⟩
  · simp
  · exact List.take_left store _
  · intro h
    simp [h]
  · intro i c hic
    refine ⟨mkRecord metadata docId (i, c), ?_, rfl, rfl, ?_, ?_, ?_⟩
    · rw [List.getElem?_append_right (Nat.le_add_right store.length i)]
      simp only [Nat.add_sub_cancel_left]
      rw [List.getElem?_map, List.getElem?_enum, hic]
      rfl
    · simp only [mkRecord]
      rw [dictGet_dictSet, if_neg (by decide : ¬ ("doc_id" : String) = "chunk_index"),
        dictGet_dictSet, if_pos rfl]
    · simp only [mkRecord]
      rw [dictGet_dictSet, if_pos rfl]
    · intro k hk1 hk2
      simp only [mkRecord]
      rw [dictGet_dictSet, if_neg hk2, dictGet_dictSet, if_neg hk1]

/-- Witness for `add_document_spec` at a concrete input. -/
theorem add_document_spec_witness :
    ∃ r, (add_document [] ("hello".toList) [("title", MetaVal.str "X")]
          "D").1[([] : List Record).length + 0]? = some r
      ∧ r.document = "hello".toList
      ∧ r.id = "D" ++ "_" ++ toString 0
      ∧ dictGet r.metadata "doc_id" = some (MetaVal.str "D")
      ∧ dictGet r.metadata "chunk_index" = some (MetaVal.nat 0)
      ∧ ∀ k, k ≠ "doc_id" → k ≠ "chunk_index" →
          dictGet r.metadata k = dictGet [("title", MetaVal.str "X")] k :=
  (add_document_spec [] ("hello".toList) [("title", MetaVal.str "X")] "D").2.2.2.2 0
    ("hello".toList) (by decide)

/-- A document summary as built by `get_all_documents`
(`vector_store.py` lines 117-124). -/
structure DocSummary where
  id : MetaVal
  metadata : Dict
  chunk_count : Nat
  sample_text : List Char
deriving DecidableEq

/-- Lookup in the `doc_map` dictionary of `get_all_documents` (keys are the
values found under `doc_id`). -/
def mapGet : List (MetaVal × DocSummary) → MetaVal → Option DocSummary
  | [], _ => none
  | p :: rest, k => if k = p.1 then some p.2 else mapGet rest k

/-- The summary first stored for `base_id` (`vector_store.py` lines
118-124): caller metadata only (reserved keys stripped), `chunk_count`
initialised to 0, and the first 100 characters of the chunk text plus
`"..."` as sample text. -/
def mkSummary (base : MetaVal) (r : Record) : DocSummary :=
  { id := base
  , metadata := r.metadata.filter
      (fun kv => decide (kv.1 ≠ "doc_id" ∧ kv.1 ≠ "chunk_index"))
  , chunk_count := 0
  , sample_text := r.document.take 100 ++ ("...".toList) }

/-- `doc_map[base_id]["chunk_count"] += 1` (`vector_store.py` line 125). -/
def bumpCount (m : List (MetaVal × DocSummary)) (base : MetaVal) :
    List (MetaVal × DocSummary) :=
  m.map (fun p =>
    if p.1 = base then (p.1, { p.2 with chunk_count := p.2.chunk_count + 1 }) else p)

/-- The grouping loop of `get_all_documents` (`vector_store.py` lines
114-125).  Reading `all_data["metadatas"][i]["doc_id"]` raises `KeyError`
when the key is missing; that failure is modelled by `none`. -/
def getAllLoop : List Record → List (MetaVal × DocSummary) →
    Option (List (MetaVal × DocSummary))
  | [], acc => some acc
  | r :: rs, acc =>
    match dictGet r.metadata "doc_id" with
    | none => none
    | some base =>
      getAllLoop rs (bumpCount
        (if (mapGet acc base).isSome then acc else acc ++ [(base, mkSummary base r)])
        base)

/-- `VectorStore.get_all_documents` (`vector_store.py` lines 107-127):
`list(doc_map.values())` in first-encounter order; `none` models the
`KeyError` raised on a record whose metadata lacks `doc_id`. -/
def get_all_documents (store : List Record) : Option (List DocSummary) :=
  (getAllLoop store []).map (fun m => m.map (fun p => p.2))

/-- The test `metadata.get("doc_id") == doc_id` of `delete_document`
(`vector_store.py` line 137): true exactly when the record's metadata holds
the string `docId` under `doc_id` (a missing key yields `None`, which never
equals a string). -/
def matchesDoc (r : Record) (docId : String) : Bool :=
  decide (dictGet r.metadata "doc_id" = some (MetaVal.str docId))

/-- `VectorStore.delete_document` (`vector_store.py` lines 129-141):
collect the ids of the matching records, then bulk-delete exactly that id
set (no call at all when the set is empty). -/
def delete_document (store : List Record) (docId : String) : List Record :=
  let toDelete := store.filterMap
    (fun r => if matchesDoc r docId then some r.id else none)
  if toDelete.isEmpty then store
  else store.filter (fun r => !(decide (r.id ∈ toDelete)))

/-- `VectorStore.query` (`vector_store.py` lines 96-105): a bare delegation
to `collection.query` — the external nearest-neighbor engine, modelled as
the function argument `search` with result type `ρ` — with no validation or
post-processing of `query_text` whatsoever. -/
def query {ρ : Type} (search : List Char → Nat → ρ) (query_text : List Char)
    (n_results : Nat := 5) : ρ :=
  search query_text n_results

/-- Claim C9 (counterexample): `add_document` called with empty text does
not fail with a `ValidationError`: it returns the generated document id
(here `"D"`) with the store unchanged — `VectorStore.add_document` contains
no input validation at all. -/
theorem add_document_empty_text_returns_id :
    add_document [] [] [] "D" = ([], "D") := by decide

/-- Claim C9 (amended): neither operation validates its input.
`add_document` with empty text raises no error: it returns the generated
`document_id` and persists no record, leaving the store unchanged (the
Chunker yields zero chunks).  `query` with empty query text likewise raises
no synchronous `ValidationError`: it forwards the empty text unchanged to
the collection's nearest-neighbor search and returns whatever that search
returns. -/
theorem add_document_empty_text_noop :
    (∀ (store : List Record) (metadata : Dict) (docId : String),
        add_document store [] metadata docId = (store, docId))
    ∧ ∀ (ρ : Type) (search : List Char → Nat → ρ) (n : Nat),
        query search [] n = search [] n := by
  constructor
  · intro store metadata docId
    rw [add_document_eq]
    rw [show chunk_text [] = [] from rfl]
    simp
  · intro ρ search n
    rfl

lemma mem_toDelete (store : List Record) (docId : String) (x : String) :
    x ∈ store.filterMap (fun r => if matchesDoc r docId then some r.id else none) ↔
      ∃ r ∈ store, matchesDoc r docId = true ∧ r.id = x := by
  rw [List.mem_filterMap]
  constructor
  · rintro ⟨r, hr, hf⟩
    by_cases h : matchesDoc r docId = true
    · rw [if_pos h] at hf
      exact ⟨r, hr, h, Option.some.inj hf⟩
    · rw [if_neg h] at hf
      exact absurd hf (by simp)
  · rintro ⟨r, hr, hm, rfl⟩
    exact ⟨r, hr, by rw [if_pos hm]⟩

lemma matches_false_of_fn_none (r : Record) (docId : String)
    (h : (if matchesDoc r docId then some r.id else none) = none) :
    matchesDoc r docId = false := by
  cases hm : matchesDoc r docId
  · rfl
  · rw [if_pos hm] at h
    exact absurd h (by simp)

lemma delete_document_of_no_match (store : List Record) (docId : String)
    (h : ∀ r ∈ store, matchesDoc r docId = false) :
    delete_document store docId = store := by
  have hnil : store.filterMap
      (fun r => if matchesDoc r docId then some r.id else none) = [] := by
    rw [List.filterMap_eq_nil_iff]
    intro r hr
    rw [if_neg (by simp [h r hr])]
  simp [delete_document, hnil]

lemma delete_document_no_match (store : List Record) (docId : String) :
    ∀ r ∈ delete_document store docId, matchesDoc r docId = false := by
  intro r hr
  simp only [delete_document] at hr
  by_cases hemp : (store.filterMap
      (fun r => if matchesDoc r docId then some r.id else none)).isEmpty
  · rw [if_pos hemp] at hr
    have hnil := List.isEmpty_iff.mp hemp
    rw [List.filterMap_eq_nil_iff] at hnil
    exact matches_false_of_fn_none r docId (hnil r hr)
  · rw [if_neg hemp] at hr
    rcases List.mem_filter.mp hr with ⟨hrs, hpred⟩
    cases hm : matchesDoc r docId
    · rfl
    · have hmem : r.id ∈ store.filterMap
          (fun r => if matchesDoc r docId then some r.id else none) :=
        (mem_toDelete store docId r.id).mpr ⟨r, hrs, hm, rfl⟩
      rw [Bool.not_eq_true', decide_eq_false_iff_not] at hpred
      exact absurd hmem hpred

/-- Claim C8: `delete_document` on an id with no matching chunks succeeds
(the model is total — the code raises nothing) and leaves the store
unchanged, and running it twice on the same id leaves the store exactly as
running it once. -/
theorem delete_document_noop_idempotent (store : List Record) (docId : String) :
    ((∀ r ∈ store, matchesDoc r docId = false) →
        delete_document store docId = store)
    ∧ delete_document (delete_document store docId) docId =
        delete_document store docId :=
  ⟨delete_document_of_no_match store docId,
    delete_document_of_no_match (delete_document store docId) docId
      (delete_document_no_match store docId)⟩

/-- Witness for `delete_document_noop_idempotent` at a concrete input. -/
theorem delete_document_noop_idempotent_witness :
    delete_document [Record.mk "D_0" ("t".toList) [("doc_id", MetaVal.str "D")]] "Z" =
      [Record.mk "D_0" ("t".toList) [("doc_id", MetaVal.str "D")]] :=
  (delete_document_noop_idempotent
    [Record.mk "D_0" ("t".toList) [("doc_id", MetaVal.str "D")]] "Z").1 (by decide)

lemma record_eq_of_nodup_ids (store : List Record)
    (hids : (store.map Record.id).Nodup) :
    ∀ r ∈ store, ∀ r' ∈ store, r.id = r'.id → r = r' :=
  fun _ hr _ hr' h => List.inj_on_of_nodup_map hids hr hr' h

lemma delete_document_eq_filter (store : List Record) (docId : String)
    (hcoh : ∀ r ∈ store, ∀ r' ∈ store, r.id = r'.id →
      dictGet r.metadata "doc_id" = dictGet r'.metadata "doc_id") :
    delete_document store docId = store.filter (fun r => !(matchesDoc r docId)) := by
  simp only [delete_document]
  by_cases hemp : (store.filterMap
      (fun r => if matchesDoc r docId then some r.id else none)).isEmpty
  · rw [if_pos hemp]
    have hnil := List.isEmpty_iff.mp hemp
    rw [List.filterMap_eq_nil_iff] at hnil
    symm
    rw [List.filter_eq_self]
    intro r hr
    rw [matches_false_of_fn_none r docId (hnil r hr)]
    rfl
  · rw [if_neg hemp]
    apply List.filter_congr
    intro r hr
    cases hm : matchesDoc r docId
    · have : r.id ∉ store.filterMap
          (fun r => if matchesDoc r docId then some r.id else none) := by
        intro hmem
        rcases (mem_toDelete store docId r.id).mp hmem with ⟨r', hr', hm', hid⟩
        have hsame := hcoh r hr r' hr' hid.symm
        rw [matchesDoc, decide_eq_true_eq] at hm'
        have : matchesDoc r docId = true := by
          rw [matchesDoc, decide_eq_true_eq, hsame]
          exact hm'
        rw [hm] at this
        exact absurd this (by simp)
      simp [this]
    · have : r.id ∈ store.filterMap
          (fun r => if matchesDoc r docId then some r.id else none) :=
        (mem_toDelete store docId r.id).mpr ⟨r, hr, hm, rfl⟩
      simp [this]

lemma getAllLoop_out_facts :
    ∀ (recs : List Record) (acc : List (MetaVal × DocSummary))
      (out : List (MetaVal × DocSummary)),
      getAllLoop recs acc = some out →
      (∀ p ∈ acc, p.2.id = p.1) →
      ∀ p ∈ out, p.2.id = p.1 ∧
        ((∃ q ∈ acc, q.1 = p.1) ∨
          ∃ r ∈ recs, dictGet r.metadata "doc_id" = some p.1) := by
  intro recs
  induction recs with
  | nil =>
    intro acc out hout hacc p hp
    rw [getAllLoop] at hout
    cases hout
    exact ⟨hacc p hp, Or.inl ⟨p, hp, rfl⟩⟩
  | cons r rs ih =>
    intro acc out hout hacc p hp
    rw [getAllLoop] at hout
    cases hbase : dictGet r.metadata "doc_id" with
    | none => rw [hbase] at hout; exact absurd hout (by simp)
    | some base =>
      rw [hbase] at hout
      set acc1 := if (mapGet acc base).isSome then acc
        else acc ++ [(base, mkSummary base r)] with hacc1
      have hacc1mem : ∀ q ∈ acc1, q.2.id = q.1 ∧ ((∃ q' ∈ acc, q'.1 = q.1) ∨ q.1 = base) := by
        intro q hq
        rw [hacc1] at hq
        by_cases hs : (mapGet acc base).isSome
        · rw [if_pos hs] at hq
          exact ⟨hacc q hq, Or.inl ⟨q, hq, rfl⟩⟩
        · rw [if_neg hs] at hq
          rcases List.mem_append.mp hq with hq | hq
          · exact ⟨hacc q hq, Or.inl ⟨q, hq, rfl⟩⟩
          · rw [List.mem_singleton] at hq
            rw [hq]
            exact ⟨rfl, Or.inr rfl⟩
      have hbump : ∀ q ∈ bumpCount acc1 base, ∃ q' ∈ acc1, q.1 = q'.1 ∧ q.2.id = q'.2.id := by
        intro q hq
        rcases List.mem_map.mp hq with ⟨q', hq', hfq⟩
        by_cases h : q'.1 = base
        · rw [if_pos h] at hfq
          exact ⟨q', hq', by rw [← hfq], by rw [← hfq]⟩
        · rw [if_neg h] at hfq
          exact ⟨q', hq', by rw [← hfq], by rw [← hfq]⟩
      have hbumpid : ∀ q ∈ bumpCount acc1 base, q.2.id = q.1 := by
        intro q hq
        rcases hbump q hq with ⟨q', hq', h1, h2⟩
        rw [h1, h2]
        exact (hacc1mem q' hq').1
      rcases ih (bumpCount acc1 base) out hout hbumpid p hp with ⟨hid, horigin⟩
      refine ⟨hid, ?_⟩
      rcases horigin with ⟨q, hq, hq1⟩ | ⟨r', hr', hr'd⟩
      · rcases hbump q hq with ⟨q', hq', h1, _⟩
        rcases (hacc1mem q' hq').2 with ⟨q'', hq'', hq''1⟩ | hqb
        · exact Or.inl ⟨q'', hq'', by rw [hq''1, ← h1, hq1]⟩
        · refine Or.inr ⟨r, List.mem_cons_self r rs, ?_⟩
          rw [hbase, ← hq1, h1, hqb]
      · exact Or.inr ⟨r', List.mem_cons_of_mem r hr', hr'd⟩

/-- Claim C7: after `delete_document docId` on a store with unique record
ids (an invariant the collection guarantees), the result is exactly the
original store with every record whose metadata `doc_id` equals `docId`
removed and all other records unchanged in order; no matching record
remains, and a subsequent `get_all_documents` reports no summary with that
id. -/
theorem delete_document_removes_doc (store : List Record) (docId : String)
    (hids : (store.map Record.id).Nodup) :
    delete_document store docId = store.filter (fun r => !(matchesDoc r docId))
    ∧ (∀ r ∈ delete_document store docId,
        dictGet r.metadata "doc_id" ≠ some (MetaVal.str docId))
    ∧ ∀ out, get_all_documents (delete_document store docId) = some out →
        ∀ s ∈ out, s.id ≠ MetaVal.str docId := by
  have hcoh : ∀ r ∈ store, ∀ r' ∈ store, r.id = r'.id →
      dictGet r.metadata "doc_id" = dictGet r'.metadata "doc_id" :=
    fun r hr r' hr' h => by rw [record_eq_of_nodup_ids store hids r hr r' hr' h]
  have hfilter := delete_document_eq_filter store docId hcoh
  have hnomatch : ∀ r ∈ delete_document store docId,
      dictGet r.metadata "doc_id" ≠ some (MetaVal.str docId) := by
    intro r hr
    have := delete_document_no_match store docId r hr
    rw [matchesDoc, decide_eq_false_iff_not] at this
    exact this
  refine ⟨hfilter, hnomatch, ?_⟩
  intro out hout s hs
  simp only [get_all_documents] at hout
  cases hloop : getAllLoop (delete_document store docId) [] with
  | none => rw [hloop] at hout; exact absurd hout (by simp)
  | some m =>
    rw [hloop] at hout
    have hout' : m.map (fun p => p.2) = out := by
      simpa using hout
    rw [← hout'] at hs
    rcases List.mem_map.mp hs with ⟨p, hp, hps⟩
    rcases getAllLoop_out_facts (delete_document store docId) [] m hloop
        (by simp) p hp with ⟨hid, horigin⟩
    rcases horigin with ⟨q, hq, _⟩ | ⟨r, hr, hrd⟩
    · exact absurd hq (by simp)
    · intro hsid
      rw [← hps, hid] at hsid
      rw [hsid] at hrd
      exact hnomatch r hr hrd

/-- Witness for `delete_document_removes_doc` at a concrete input. -/
theorem delete_document_removes_doc_witness :
    delete_document
        [Record.mk "A_0" ("a".toList) [("doc_id", MetaVal.str "A")],
         Record.mk "B_0" ("b".toList) [("doc_id", MetaVal.str "B")]] "A" =
      List.filter (fun r => !(matchesDoc r "A"))
        [Record.mk "A_0" ("a".toList) [("doc_id", MetaVal.str "A")],
         Record.mk "B_0" ("b".toList) [("doc_id", MetaVal.str "B")]]
    ∧ (∀ r ∈ delete_document
        [Record.mk "A_0" ("a".toList) [("doc_id", MetaVal.str "A")],
         Record.mk "B_0" ("b".toList) [("doc_id", MetaVal.str "B")]] "A",
        dictGet r.metadata "doc_id" ≠ some (MetaVal.str "A"))
    ∧ ∀ out, get_all_documents (delete_document
        [Record.mk "A_0" ("a".toList) [("doc_id", MetaVal.str "A")],
         Record.mk "B_0" ("b".toList) [("doc_id", MetaVal.str "B")]] "A") = some out →
        ∀ s ∈ out, s.id ≠ MetaVal.str "A" :=
  delete_document_removes_doc
    [Record.mk "A_0" ("a".toList) [("doc_id", MetaVal.str "A")],
     Record.mk "B_0" ("b".toList) [("doc_id", MetaVal.str "B")]] "A" (by decide)

lemma getAllLoop_isSome :
    ∀ (recs : List Record) (acc : List (MetaVal × DocSummary)),
      (∀ r ∈ recs, (dictGet r.metadata "doc_id").isSome) →
      (getAllLoop recs acc).isSome := by
  intro recs
  induction recs with
  | nil => intro acc _; rw [getAllLoop]; rfl
  | cons r rs ih =>
    intro acc hall
    rcases Option.isSome_iff_exists.mp (hall r (List.mem_cons_self r rs)) with ⟨base, hbase⟩
    rw [getAllLoop, hbase]
    exact ih _ (fun q hq => hall q (List.mem_cons_of_mem r hq))

/-- Claim C10: `get_all_documents` reads the `doc_id` metadata key without a
default — it succeeds on every store whose records all carry the key (as
all records written by `add_document` do), and fails (`KeyError`, modelled
as `none`) on a store holding a record without it; `delete_document` uses a
defaulted lookup instead, never fails on such records, and silently keeps
them (they match no document id). -/
theorem get_all_documents_key_sensitivity :
    (∀ store : List Record, (∀ r ∈ store, (dictGet r.metadata "doc_id").isSome) →
        (get_all_documents store).isSome)
    ∧ get_all_documents [Record.mk "x" ("t".toList) []] = none
    ∧ ∀ (store : List Record) (docId : String), (store.map Record.id).Nodup →
        ∀ r ∈ store, dictGet r.metadata "doc_id" = none →
          r ∈ delete_document store docId := by
  refine ⟨?_, by decide, ?_⟩
  · intro store h
    simp only [get_all_documents]
    rcases Option.isSome_iff_exists.mp (getAllLoop_isSome store [] h) with ⟨m, hm⟩
    rw [hm]
    rfl
  · intro store docId hids r hr hnone
    have hcoh : ∀ r ∈ store, ∀ r' ∈ store, r.id = r'.id →
        dictGet r.metadata "doc_id" = dictGet r'.metadata "doc_id" :=
      fun a ha a' ha' h => by rw [record_eq_of_nodup_ids store hids a ha a' ha' h]
    rw [delete_document_eq_filter store docId hcoh, List.mem_filter]
    refine ⟨hr, ?_⟩
    simp [matchesDoc, hnone]

/-- Witness for `get_all_documents_key_sensitivity` at a concrete input. -/
theorem get_all_documents_key_sensitivity_witness :
    (get_all_documents [Record.mk "A_0" ("t".toList)
        [("doc_id", MetaVal.str "A")]]).isSome :=
  get_all_documents_key_sensitivity.1
    [Record.mk "A_0" ("t".toList) [("doc_id", MetaVal.str "A")]] (by decide)

lemma add_document_fst (store : List Record) (text : List Char) (metadata : Dict)
    (docId : String) :
    (add_document store text metadata docId).1 =
      store ++ (chunk_text text).enum.map (mkRecord metadata docId) := by
  rw [add_document_eq, dict_if_isEmpty]

lemma mkRecord_doc_id (md : Dict) (docId : String) (ic : Nat × List Char) :
    dictGet (mkRecord md docId ic).metadata "doc_id" = some (MetaVal.str docId) := by
  simp only [mkRecord]
  rw [dictGet_dictSet, if_neg (by decide : ¬ ("doc_id" : String) = "chunk_index"),
    dictGet_dictSet, if_pos rfl]

lemma mkRecord_chunk_index (md : Dict) (docId : String) (ic : Nat × List Char) :
    dictGet (mkRecord md docId ic).metadata "chunk_index" = some (MetaVal.nat ic.1) := by
  simp only [mkRecord]
  rw [dictGet_dictSet, if_pos rfl]

/-- The `chunk_index` metadata value of a record, when it is an integer. -/
def chunkIndexOf (r : Record) : Option Nat :=
  match dictGet r.metadata "chunk_index" with
  | some (MetaVal.nat i) => some i
  | _ => none

/-- The index contributed to document `d` by record `r`, if any. -/
def idxFn (d : String) (r : Record) : Option Nat :=
  if matchesDoc r d then chunkIndexOf r else none

/-- The `chunk_index` values of the records carrying `doc_id = d`, in store
order. -/
def indicesOf (store : List Record) (d : String) : List Nat :=
  store.filterMap (idxFn d)

/-- Store states reachable from an empty collection by sequences of
`add_document` and `delete_document` calls.  The two hypotheses of `add`
model the uniqueness of `uuid.uuid4()`: the fresh document id never equals
the `doc_id` of a stored record and never produces a chunk id colliding
with a stored record id. -/
inductive Reachable : List Record → Prop where
  | empty : Reachable []
  | add (store : List Record) (text : List Char) (metadata : Dict) (docId : String) :
      Reachable store →
      (∀ r ∈ store, dictGet r.metadata "doc_id" ≠ some (MetaVal.str docId)) →
      (∀ r ∈ store, ∀ i : Nat, r.id ≠ docId ++ "_" ++ toString i) →
      Reachable (add_document store text metadata docId).1
  | del (store : List Record) (docId : String) :
      Reachable store → Reachable (delete_document store docId)

lemma idxFn_mkRecord (d : String) (md : Dict) (docId : String) (ic : Nat × List Char) :
    idxFn d (mkRecord md docId ic) = if docId = d then some ic.1 else none := by
  rw [idxFn, matchesDoc, mkRecord_doc_id]
  by_cases h : docId = d
  · rw [if_pos h, if_pos (by simp [h])]
    simp [chunkIndexOf, mkRecord_chunk_index]
  · rw [if_neg h, if_neg (by simp [h])]

lemma indicesOf_new_self (md : Dict) (docId : String) (chunks : List (List Char)) :
    (chunks.enum.map (mkRecord md docId)).filterMap (idxFn docId) =
      List.range chunks.length := by
  rw [List.filterMap_map]
  have hfn : (idxFn docId ∘ mkRecord md docId) =
      (fun ic : Nat × List Char => some ic.1) := by
    funext ic
    simp [Function.comp, idxFn_mkRecord]
  rw [hfn]
  rw [show (fun ic : Nat × List Char => some ic.1) =
      some ∘ (Prod.fst : Nat × List Char → Nat) from rfl]
  rw [List.filterMap_eq_map, List.enum_map_fst]

lemma indicesOf_new_other (md : Dict) (docId d : String) (chunks : List (List Char))
    (h : docId ≠ d) :
    (chunks.enum.map (mkRecord md docId)).filterMap (idxFn d) = [] := by
  rw [List.filterMap_eq_nil_iff]
  intro r hr
  rcases List.mem_map.mp hr with ⟨ic, _, rfl⟩
  rw [idxFn_mkRecord, if_neg h]

lemma indicesOf_eq_nil_of_fresh (store : List Record) (docId : String)
    (hfresh : ∀ r ∈ store, dictGet r.metadata "doc_id" ≠ some (MetaVal.str docId)) :
    indicesOf store docId = [] := by
  rw [indicesOf, List.filterMap_eq_nil_iff]
  intro r hr
  rw [idxFn, if_neg (by simp [matchesDoc, hfresh r hr])]

lemma filterMap_filter_of_none {α β : Type} (f : α → Option β) (p : α → Bool) :
    ∀ l : List α, (∀ x ∈ l, p x = false → f x = none) →
      (l.filter p).filterMap f = l.filterMap f := by
  intro l
  induction l with
  | nil => intro _; rfl
  | cons x xs ih =>
    intro h
    cases hp : p x
    · rw [List.filter_cons_of_neg (by simp [hp]), List.filterMap_cons,
        h x (List.mem_cons_self x xs) hp]
      exact ih (fun y hy => h y (List.mem_cons_of_mem x hy))
    · rw [List.filter_cons_of_pos (by simp [hp]), List.filterMap_cons, List.filterMap_cons]
      rw [ih (fun y hy => h y (List.mem_cons_of_mem x hy))]

lemma reachable_invariant (store : List Record) (h : Reachable store) :
    (∀ d, ∃ k, indicesOf store d = List.range k)
    ∧ (∀ r ∈ store, ∀ r' ∈ store, r.id = r'.id →
        dictGet r.metadata "doc_id" = dictGet r'.metadata "doc_id") := by
  induction h with
  | empty => exact ⟨fun d => ⟨0, rfl⟩, by simp⟩
  | add store text metadata docId hst hfresh hid ih =>
    obtain ⟨ihRange, ihCoh⟩ := ih
    rw [add_document_fst]
    constructor
    · intro d
      rw [indicesOf, List.filterMap_append]
      by_cases hd : docId = d
      · subst hd
        rw [show store.filterMap (idxFn docId) = [] from
          indicesOf_eq_nil_of_fresh store docId hfresh]
        rw [indicesOf_new_self]
        exact ⟨(chunk_text text).length, by simp⟩
      · rw [indicesOf_new_other metadata docId d _ hd]
        rcases ihRange d with ⟨k, hk⟩
        rw [indicesOf] at hk
        exact ⟨k, by rw [← hk]; simp⟩
    · intro r hr r' hr' heq
      rcases List.mem_append.mp hr with h1 | h1 <;>
        rcases List.mem_append.mp hr' with h2 | h2
      · exact ihCoh r h1 r' h2 heq
      · rcases List.mem_map.mp h2 with ⟨ic, _, hic⟩
        rw [← hic] at heq
        exact absurd heq (hid r h1 ic.1)
      · rcases List.mem_map.mp h1 with ⟨ic, _, hic⟩
        rw [← hic] at heq
        exact absurd heq.symm (hid r' h2 ic.1)
      · rcases List.mem_map.mp h1 with ⟨ic, _, hic⟩
        rcases List.mem_map.mp h2 with ⟨ic', _, hic'⟩
        rw [← hic, ← hic', mkRecord_doc_id, mkRecord_doc_id]
  | del store docId hst ih =>
    obtain ⟨ihRange, ihCoh⟩ := ih
    have hfilter := delete_document_eq_filter store docId ihCoh
    constructor
    · intro d
      rw [hfilter]
      by_cases hd : docId = d
      · subst hd
        refine ⟨0, ?_⟩
        rw [List.range_zero, indicesOf, List.filterMap_eq_nil_iff]
        intro r hr
        rcases List.mem_filter.mp hr with ⟨_, hpred⟩
        rw [Bool.not_eq_true'] at hpred
        rw [idxFn, if_neg (by simp [hpred])]
      · rcases ihRange d with ⟨k, hk⟩
        refine ⟨k, ?_⟩
        rw [indicesOf] at hk ⊢
        rw [← hk]
        apply filterMap_filter_of_none
        intro r _ hp
        have hp' : matchesDoc r docId = true := by simpa using hp
        rw [matchesDoc, decide_eq_true_eq] at hp'
        rw [idxFn, if_neg (by simp [matchesDoc, hp', hd])]
    · intro r hr r' hr' heq
      rw [hfilter] at hr hr'
      exact ihCoh r (List.mem_filter.mp hr).1 r' (List.mem_filter.mp hr').1 heq

/-- Claim C5: after every sequence of `add_document` and `delete_document`
operations (with fresh generated ids), the `chunk_index` values of the
records carrying any given `doc_id` are exactly `0, 1, ..., k-1` in order —
a contiguous zero-based sequence with no gaps and no duplicates. -/
theorem chunk_index_contiguous (store : List Record) (h : Reachable store)
    (d : String) : ∃ k, indicesOf store d = List.range k :=
  (reachable_invariant store h).1 d

/-- Witness for `chunk_index_contiguous` at a concrete reachable state. -/
theorem chunk_index_contiguous_witness :
    ∃ k, indicesOf (add_document [] ("a\nb".toList) [] "D").1 "D" = List.range k :=
  chunk_index_contiguous (add_document [] ("a\nb".toList) [] "D").1
    (Reachable.add [] ("a\nb".toList) [] "D" Reachable.empty (by simp) (by simp)) "D"

lemma dictGet_eq_none : ∀ (m : Dict) (k : String), (∀ p ∈ m, ¬ k = p.1) →
    dictGet m k = none := by
  intro m
  induction m with
  | nil => intro k _; rfl
  | cons p rest ih =>
    intro k h
    rw [dictGet, if_neg (h p (List.mem_cons_self p rest))]
    exact ih k (fun q hq => h q (List.mem_cons_of_mem p hq))

lemma dictSet_of_none (m : Dict) (k : String) (v : MetaVal)
    (h : dictGet m k = none) : dictSet m k v = m ++ [(k, v)] := by
  rw [dictSet, if_neg (by simp [h])]

lemma filter_reserved_mkRecord (md : Dict) (docId : String) (ic : Nat × List Char)
    (hmd : ∀ p ∈ md, p.1 ≠ "doc_id" ∧ p.1 ≠ "chunk_index") :
    (mkRecord md docId ic).metadata.filter
      (fun kv => decide (kv.1 ≠ "doc_id" ∧ kv.1 ≠ "chunk_index")) = md := by
  have h1 : dictGet md "doc_id" = none :=
    dictGet_eq_none md "doc_id" (fun p hp h => (hmd p hp).1 h.symm)
  have h2 : dictGet (md ++ [("doc_id", MetaVal.str docId)]) "chunk_index" = none := by
    rw [dictGet_append_single "doc_id" (MetaVal.str docId) md "chunk_index" h1,
      if_neg (by decide)]
    exact dictGet_eq_none md "chunk_index" (fun p hp h => (hmd p hp).2 h.symm)
  simp only [mkRecord]
  rw [dictSet_of_none md "doc_id" _ h1, dictSet_of_none _ "chunk_index" _ h2]
  rw [List.filter_append, List.filter_append]
  rw [List.filter_eq_self.mpr (fun p hp => by simp [(hmd p hp).1, (hmd p hp).2])]
  rw [List.filter_cons_of_neg (by simp), List.filter_cons_of_neg (by simp)]
  simp

lemma getAllLoop_single_group :
    ∀ (recs : List Record) (base : MetaVal) (s : DocSummary),
      (∀ r ∈ recs, dictGet r.metadata "doc_id" = some base) →
      getAllLoop recs [(base, s)] =
        some [(base, { s with chunk_count := s.chunk_count + recs.length })] := by
  intro recs
  induction recs with
  | nil =>
    intro base s _
    rw [getAllLoop]
    simp
  | cons r rs ih =>
    intro base s hall
    rw [getAllLoop]
    simp only [hall r (List.mem_cons_self r rs)]
    rw [if_pos (by simp [mapGet] : ((mapGet [(base, s)] base).isSome = true))]
    rw [show bumpCount [(base, s)] base =
        [(base, { s with chunk_count := s.chunk_count + 1 })] from by simp [bumpCount]]
    rw [ih base { s with chunk_count := s.chunk_count + 1 }
        (fun q hq => hall q (List.mem_cons_of_mem r hq))]
    rw [List.length_cons]
    show some [(base, DocSummary.mk s.id s.metadata
        (s.chunk_count + 1 + rs.length) s.sample_text)] =
      some [(base, DocSummary.mk s.id s.metadata
        (s.chunk_count + (rs.length + 1)) s.sample_text)]
    rw [show s.chunk_count + 1 + rs.length = s.chunk_count + (rs.length + 1) from by omega]

/-- Claim C6: on an empty store, `add_document` for a text with at least one
chunk and caller metadata without reserved keys, followed immediately by
`get_all_documents`, reports exactly one summary: its id is the document id,
its `chunk_count` is the number of chunks the Chunker produces, its metadata
is exactly the caller metadata (no `doc_id`/`chunk_index` leakage), and its
`sample_text` is the first 100 characters of the first chunk followed by
`"..."`. -/
theorem add_then_list_single_summary (text : List Char) (metadata : Dict)
    (docId : String) (c : List Char) (cs : List (List Char))
    (hchunks : chunk_text text = c :: cs)
    (hmd : ∀ p ∈ metadata, p.1 ≠ "doc_id" ∧ p.1 ≠ "chunk_index") :
    get_all_documents (add_document [] text metadata docId).1 =
      some [DocSummary.mk (MetaVal.str docId) metadata
        ((chunk_text text).length) (c.take 100 ++ ("...".toList))] := by
  have hS0 : mkSummary (MetaVal.str docId) (mkRecord metadata docId (0, c)) =
      DocSummary.mk (MetaVal.str docId) metadata 0 (c.take 100 ++ ("...".toList)) := by
    simp only [mkSummary]
    rw [filter_reserved_mkRecord metadata docId (0, c) hmd]
    rfl
  rw [get_all_documents, add_document_fst, hchunks, List.nil_append]
  rw [List.enum_cons, List.map_cons, getAllLoop]
  simp only [mkRecord_doc_id]
  rw [if_neg (by simp [mapGet])]
  rw [List.nil_append, hS0]
  rw [show bumpCount [(MetaVal.str docId,
        DocSummary.mk (MetaVal.str docId) metadata 0 (c.take 100 ++ ("...".toList)))]
        (MetaVal.str docId) =
      [(MetaVal.str docId,
        DocSummary.mk (MetaVal.str docId) metadata 1 (c.take 100 ++ ("...".toList)))]
    from by simp [bumpCount]]
  rw [getAllLoop_single_group _ _ _ (by
    intro q hq
    rcases List.mem_map.mp hq with ⟨ic, _, hic⟩
    rw [← hic]
    exact mkRecord_doc_id metadata docId ic)]
  simp only [Option.map_some', List.map_cons, List.map_nil, List.length_map,
    List.enumFrom_length, List.length_cons]
  congr 3
  omega

/-- Witness for `add_then_list_single_summary` at a concrete input. -/
theorem add_then_list_single_summary_witness :
    get_all_documents (add_document [] ("hello".toList)
        [("title", MetaVal.str "X")] "D").1 =
      some [DocSummary.mk (MetaVal.str "D") [("title", MetaVal.str "X")]
        ((chunk_text ("hello".toList)).length)
        (("hello".toList).take 100 ++ ("...".toList))] :=
  add_then_list_single_summary ("hello".toList) [("title", MetaVal.str "X")] "D"
    ("hello".toList) [] (by decide) (by decide)
